import Mathlib

-- Shallow embedding of the numeric routines of the Fingpt dashboard:
-- the risk metrics of src/frontend/src/pages/RiskAnalysis.js (calculateVaR,
-- calculateCVaR, calculateMaxDrawdown, calculateSharpeRatio,
-- calculateCorrelation, calculateCorrelationMatrix) and the technical
-- indicators of the TechnicalAnalysis page (calculateRSI, calculateMACD,
-- calculateEMA, calculateBollingerBands).
--
-- JavaScript numbers are idealised as exact rationals (or reals where the
-- source calls Math.sqrt).  The places where IEEE division by zero can
-- produce Infinity or NaN (0/0 in calculateCVaR's empty tail, avgGain/avgLoss
-- in calculateRSI) are modelled explicitly by the type JsNum below, so that
-- the `x || 0` fallbacks and NaN propagation of the source are captured
-- rather than silenced by Lean's 0/0 = 0 convention.  Rounding error is not
-- modelled.

/-- JsNum is a JavaScript number: either a finite value (idealised as an exact
rational), positive or negative Infinity, or NaN.  Negative zero is identified
with zero: in every expression of the embedded code the two behave alike
(both are falsy for `||`, and every result flows through Math.abs or a
comparison where they agree). -/
inductive JsNum where
  | num : ℚ → JsNum
  | inf : JsNum
  | ninf : JsNum
  | nan : JsNum
deriving DecidableEq

/-- Addition of JavaScript numbers (IEEE rules on the idealised values). -/
def JsNum.add : JsNum → JsNum → JsNum
  | .nan, _ => .nan
  | _, .nan => .nan
  | .inf, .ninf => .nan
  | .ninf, .inf => .nan
  | .inf, _ => .inf
  | _, .inf => .inf
  | .ninf, _ => .ninf
  | _, .ninf => .ninf
  | .num a, .num b => .num (a + b)

/-- Subtraction of JavaScript numbers (IEEE rules on the idealised values). -/
def JsNum.sub : JsNum → JsNum → JsNum
  | .nan, _ => .nan
  | _, .nan => .nan
  | .inf, .inf => .nan
  | .ninf, .ninf => .nan
  | .inf, _ => .inf
  | _, .inf => .ninf
  | .ninf, _ => .ninf
  | _, .ninf => .inf
  | .num a, .num b => .num (a - b)

/-- Division of JavaScript numbers: a nonzero finite value divided by zero
gives a signed Infinity, 0/0 gives NaN, a finite value divided by an Infinity
gives 0, and NaN propagates (IEEE rules on the idealised values). -/
def JsNum.div : JsNum → JsNum → JsNum
  | .nan, _ => .nan
  | _, .nan => .nan
  | .inf, .inf => .nan
  | .inf, .ninf => .nan
  | .ninf, .inf => .nan
  | .ninf, .ninf => .nan
  | .inf, .num b => if b < 0 then .ninf else .inf
  | .ninf, .num b => if b < 0 then .inf else .ninf
  | .num _, .inf => .num 0
  | .num _, .ninf => .num 0
  | .num a, .num b =>
      if b = 0 then (if a = 0 then .nan else if 0 < a then .inf else .ninf)
      else .num (a / b)

/-- Math.abs on a JavaScript number. -/
def JsNum.abs : JsNum → JsNum
  | .num a => .num |a|
  | .inf => .inf
  | .ninf => .inf
  | .nan => .nan

/-- The JavaScript expression `x || 0`: NaN and 0 are falsy and give 0,
every other number is truthy and gives itself. -/
def JsNum.orZero : JsNum → JsNum
  | .num a => if a = 0 then .num 0 else .num a
  | .nan => .num 0
  | .inf => .inf
  | .ninf => .ninf

/-- JavaScript array indexing `l[i]` with an Int index: `some` of the element
when the index is in bounds, `none` (undefined) otherwise. -/
def jsIndex (l : List ℚ) (i : ℤ) : Option ℚ :=
  if h : 0 ≤ i ∧ i.toNat < l.length then some (l.get ⟨i.toNat, h.2⟩) else none

/-- The JavaScript expression `l[i] || 0` on a possibly-undefined array
element: undefined and 0 are falsy and give 0. -/
def jsOrZeroQ : Option ℚ → ℚ
  | none => 0
  | some q => if q = 0 then 0 else q

/-- JavaScript `l.slice(0, e)` with an Int end index: a nonnegative end takes
that many elements (clamped to the length), a negative end counts from the
end of the array. -/
def jsSlice0 (l : List ℚ) (e : ℤ) : List ℚ :=
  if 0 ≤ e then l.take e.toNat else l.take (l.length - (-e).toNat)

/-- calculateVaR from RiskAnalysis.js: sort a copy of the returns ascending
(the comparator `(a, b) => a - b`), index at Math.floor(confidence * length),
and return Math.abs of `sortedReturns[index] || 0`; an empty array gives 0. -/
def calculateVaR (returns : List ℚ) (confidence : ℚ) : ℚ :=
  if returns.length = 0 then 0
  else
    |jsOrZeroQ (jsIndex (List.insertionSort (· ≤ ·) returns)
      ⌊confidence * ((List.insertionSort (· ≤ ·) returns).length : ℚ)⌋)|

/-- calculateCVaR from RiskAnalysis.js: sort a copy of the returns ascending,
slice the tail strictly below the VaR index, and return
`Math.abs(tail.sum / tail.length || 0)`.  The division is JavaScript division
(JsNum.div), so an empty tail yields 0/0 = NaN, which `|| 0` coerces to 0;
an empty array gives 0. -/
def calculateCVaR (returns : List ℚ) (confidence : ℚ) : JsNum :=
  if returns.length = 0 then JsNum.num 0
  else
    JsNum.abs (JsNum.orZero (JsNum.div
      (JsNum.num (jsSlice0 (List.insertionSort (· ≤ ·) returns)
        ⌊confidence * ((List.insertionSort (· ≤ ·) returns).length : ℚ)⌋).sum)
      (JsNum.num ((jsSlice0 (List.insertionSort (· ≤ ·) returns)
        ⌊confidence * ((List.insertionSort (· ≤ ·) returns).length : ℚ)⌋).length : ℚ))))

/-- The loop of calculateMaxDrawdown from RiskAnalysis.js: walk the remaining
prices keeping the running peak `maxPrice` and the running maximum of
`(maxPrice - price) / maxPrice`. -/
def mddGo (maxPrice maxDrawdown : ℚ) : List ℚ → ℚ
  | [] => maxDrawdown
  | p :: ps =>
      let mp := if maxPrice < p then p else maxPrice
      let d := (mp - p) / mp
      mddGo mp (if maxDrawdown < d then d else maxDrawdown) ps

/-- calculateMaxDrawdown from RiskAnalysis.js: single pass starting from the
first price as the initial peak and 0 as the initial drawdown; an empty array
gives 0. -/
def calculateMaxDrawdown (prices : List ℚ) : ℚ :=
  match prices with
  | [] => 0
  | p :: ps => mddGo p 0 ps

/-- Textbook helper for the spec side of claim C3: the relative drawdown
`(prices[i] - prices[j]) / prices[i]` of every index pair i < j. -/
def pairDrawdowns : List ℚ → List ℚ
  | [] => []
  | p :: ps => ps.map (fun q => (p - q) / p) ++ pairDrawdowns ps

/-- Textbook peak-to-trough maximum drawdown, as the claim states it: the
maximum of 0 and of `(prices[i] - prices[j]) / prices[i]` over all pairs
i < j.  This is the spec-side definition compared against the single-pass
calculateMaxDrawdown of the source. -/
def maxDrawdownSpec (prices : List ℚ) : ℚ :=
  (pairDrawdowns prices).foldr max 0

/-- Per-step drawdowns of the single-pass algorithm: for each position, the
drawdown of that price against the running peak (seeded with `m`). -/
def ddList (m : ℚ) : List ℚ → List ℚ
  | [] => []
  | p :: ps => ((max m p - p) / max m p) :: ddList (max m p) ps

lemma pairDrawdowns_cons (p : ℚ) (ps : List ℚ) :
    pairDrawdowns (p :: ps) = ps.map (fun q => (p - q) / p) ++ pairDrawdowns ps := rfl

lemma ddList_cons (m p : ℚ) (ps : List ℚ) :
    ddList m (p :: ps) = ((max m p - p) / max m p) :: ddList (max m p) ps := rfl

lemma ite_lt_eq_max (a b : ℚ) : (if a < b then b else a) = max a b := by
  rcases le_or_lt b a with h | h
  · rw [if_neg (not_lt.mpr h), max_eq_left h]
  · rw [if_pos h, max_eq_right h.le]

lemma le_foldr_max_init (l : List ℚ) (b : ℚ) : b ≤ l.foldr max b := by
  induction l with
  | nil => exact le_refl b
  | cons a l ih => exact le_trans ih (le_max_right a _)

lemma le_foldr_max_of_mem {a : ℚ} {l : List ℚ} (h : a ∈ l) (b : ℚ) :
    a ≤ l.foldr max b := by
  induction l with
  | nil => simp at h
  | cons x l ih =>
      rcases List.mem_cons.mp h with h1 | h2
      · exact h1 ▸ le_max_left _ _
      · exact le_trans (ih h2) (le_max_right x _)

lemma foldr_max_le {l : List ℚ} {b c : ℚ} (hb : b ≤ c) (h : ∀ a ∈ l, a ≤ c) :
    l.foldr max b ≤ c := by
  induction l with
  | nil => exact hb
  | cons x l ih =>
      exact max_le (h x (List.mem_cons_self x l))
        (ih fun a ha => h a (List.mem_cons_of_mem x ha))

lemma foldr_max_le_foldr_max {l₁ l₂ : List ℚ} (h : ∀ a ∈ l₁, a ∈ l₂) (b : ℚ) :
    l₁.foldr max b ≤ l₂.foldr max b :=
  foldr_max_le (le_foldr_max_init l₂ b) fun a ha => le_foldr_max_of_mem (h a ha) b

lemma foldr_max_init_comm (l : List ℚ) (b t : ℚ) :
    l.foldr max (max b t) = max t (l.foldr max b) := by
  induction l with
  | nil => exact max_comm b t
  | cons a l ih => rw [List.foldr_cons, List.foldr_cons, ih, max_left_comm]

lemma mddGo_cons (m d p : ℚ) (ps : List ℚ) :
    mddGo m d (p :: ps) =
      mddGo (max m p) (max d ((max m p - p) / max m p)) ps := by
  simp only [mddGo]
  rw [ite_lt_eq_max m p, ite_lt_eq_max d _]

lemma mddGo_eq_foldr (ps : List ℚ) : ∀ m d : ℚ,
    mddGo m d ps = (ddList m ps).foldr max d := by
  induction ps with
  | nil => intro m d; rfl
  | cons p ps ih =>
      intro m d
      rw [mddGo_cons, ih, ddList_cons, List.foldr_cons, foldr_max_init_comm]

lemma dd_mono {x y q : ℚ} (hx : 0 < x) (hxy : x ≤ y) (hq : 0 < q) :
    (x - q) / x ≤ (y - q) / y := by
  have hy : 0 < y := lt_of_lt_of_le hx hxy
  rw [div_le_div_iff₀ hx hy]
  nlinarith [mul_nonneg (sub_nonneg.mpr hxy) hq.le]

lemma dd_le_spec : ∀ (ps : List ℚ) (m : ℚ), 0 < m → (∀ q ∈ ps, 0 < q) →
    (ddList m ps).foldr max 0 ≤
      (ps.map (fun q => (m - q) / m) ++ pairDrawdowns ps).foldr max 0 := by
  intro ps
  induction ps with
  | nil => intro m _ _; simp [ddList, pairDrawdowns]
  | cons q qs ih =>
      intro m hm hq
      have hq0 : 0 < q := hq q (List.mem_cons_self q qs)
      have hqs : ∀ r ∈ qs, 0 < r := fun r hr => hq r (List.mem_cons_of_mem q hr)
      have hm' : 0 < max m q := lt_of_lt_of_le hm (le_max_left m q)
      rw [ddList_cons, List.foldr_cons]
      apply max_le
      · rcases le_total q m with hle | hle
        · rw [max_eq_left hle]
          exact le_foldr_max_of_mem
            (List.mem_append_left _ (List.mem_map_of_mem _ (List.mem_cons_self q qs))) 0
        · rw [max_eq_right hle, sub_self, zero_div]
          exact le_foldr_max_init _ 0
      · refine le_trans (ih (max m q) hm' hqs) ?_
        apply foldr_max_le_foldr_max
        intro a ha
        rcases List.mem_append.mp ha with hmap | hpd
        · rcases List.mem_map.mp hmap with ⟨r, hr, rfl⟩
          rcases le_total q m with hle | hle
          · rw [max_eq_left hle]
            exact List.mem_append_left _
              (List.mem_map_of_mem _ (List.mem_cons_of_mem q hr))
          · rw [max_eq_right hle]
            apply List.mem_append_right
            rw [pairDrawdowns_cons]
            exact List.mem_append_left _ (List.mem_map_of_mem _ hr)
        · apply List.mem_append_right
          rw [pairDrawdowns_cons]
          exact List.mem_append_right _ hpd

lemma spec_le_dd : ∀ (ps : List ℚ) (m : ℚ), 0 < m → (∀ q ∈ ps, 0 < q) →
    (ps.map (fun q => (m - q) / m) ++ pairDrawdowns ps).foldr max 0 ≤
      (ddList m ps).foldr max 0 := by
  intro ps
  induction ps with
  | nil => intro m _ _; simp [ddList, pairDrawdowns]
  | cons q qs ih =>
      intro m hm hq
      have hq0 : 0 < q := hq q (List.mem_cons_self q qs)
      have hqs : ∀ r ∈ qs, 0 < r := fun r hr => hq r (List.mem_cons_of_mem q hr)
      have hm' : 0 < max m q := lt_of_lt_of_le hm (le_max_left m q)
      have hIH : (qs.map (fun r => (max m q - r) / max m q) ++ pairDrawdowns qs).foldr max 0 ≤
          (ddList (max m q) qs).foldr max 0 := ih (max m q) hm' hqs
      rw [ddList_cons, List.foldr_cons]
      apply foldr_max_le
      · exact le_trans (le_foldr_max_init _ 0) (le_max_right _ _)
      · intro a ha
        rcases List.mem_append.mp ha with hmap | hpd
        · rcases List.mem_map.mp hmap with ⟨r, hr, rfl⟩
          rcases List.mem_cons.mp hr with rfl | hrqs
          · exact le_trans (dd_mono hm (le_max_left m r) hq0) (le_max_left _ _)
          · have h1 : (m - r) / m ≤ (max m q - r) / max m q :=
              dd_mono hm (le_max_left m q) (hqs r hrqs)
            have h2 : (max m q - r) / max m q ≤
                (qs.map (fun r' => (max m q - r') / max m q) ++ pairDrawdowns qs).foldr max 0 :=
              le_foldr_max_of_mem (List.mem_append_left _ (List.mem_map_of_mem _ hrqs)) 0
            exact le_trans h1 (le_trans h2 (le_trans hIH (le_max_right _ _)))
        · rw [pairDrawdowns_cons] at hpd
          rcases List.mem_append.mp hpd with hmq2 | hpd2
          · rcases List.mem_map.mp hmq2 with ⟨r, hr, rfl⟩
            have h1 : (q - r) / q ≤ (max m q - r) / max m q :=
              dd_mono hq0 (le_max_right m q) (hqs r hr)
            have h2 : (max m q - r) / max m q ≤
                (qs.map (fun r' => (max m q - r') / max m q) ++ pairDrawdowns qs).foldr max 0 :=
              le_foldr_max_of_mem (List.mem_append_left _ (List.mem_map_of_mem _ hr)) 0
            exact le_trans h1 (le_trans h2 (le_trans hIH (le_max_right _ _)))
          · have h2 : a ≤
                (qs.map (fun r' => (max m q - r') / max m q) ++ pairDrawdowns qs).foldr max 0 :=
              le_foldr_max_of_mem (List.mem_append_right _ hpd2) 0
            exact le_trans h2 (le_trans hIH (le_max_right _ _))

/-- C3: for strictly positive prices the single-pass calculateMaxDrawdown
equals the textbook peak-to-trough definition (the maximum of 0 and of
`(prices[i] - prices[j]) / prices[i]` over all index pairs i < j), and an
array of length at most 1 yields 0. -/
theorem maxDrawdown_eq_textbook (prices : List ℚ) (hpos : ∀ p ∈ prices, 0 < p) :
    calculateMaxDrawdown prices = maxDrawdownSpec prices ∧
    (prices.length ≤ 1 → calculateMaxDrawdown prices = 0) := by
  constructor
  · cases prices with
    | nil => rfl
    | cons p ps =>
        have hp : 0 < p := hpos p (List.mem_cons_self p ps)
        have hps : ∀ q ∈ ps, 0 < q := fun q hq => hpos q (List.mem_cons_of_mem p hq)
        show mddGo p 0 ps = maxDrawdownSpec (p :: ps)
        rw [mddGo_eq_foldr]
        unfold maxDrawdownSpec
        rw [pairDrawdowns_cons]
        exact le_antisymm (dd_le_spec ps p hp hps) (spec_le_dd ps p hp hps)
  · intro hlen
    match prices with
    | [] => rfl
    | [p] => rfl
    | p :: q :: qs => simp at hlen

/-- Witness for C3 at the concrete price path [4, 2, 6, 3]. -/
theorem maxDrawdown_textbook_witness :
    calculateMaxDrawdown [4, 2, 6, 3] = maxDrawdownSpec [4, 2, 6, 3] ∧
    (([4, 2, 6, 3] : List ℚ).length ≤ 1 → calculateMaxDrawdown [4, 2, 6, 3] = 0) :=
  maxDrawdown_eq_textbook [4, 2, 6, 3] (by decide)

lemma abs_jsOrZeroQ_some (v : ℚ) : |jsOrZeroQ (some v)| = |v| := by
  by_cases h : v = 0
  · simp [jsOrZeroQ, h]
  · simp [jsOrZeroQ, h]

lemma abs_orZero_num (q : ℚ) :
    JsNum.abs (JsNum.orZero (JsNum.num q)) = JsNum.num |q| := by
  by_cases h : q = 0
  · simp [JsNum.orZero, JsNum.abs, h]
  · simp [JsNum.orZero, JsNum.abs, h]

lemma floor_lt_length {c : ℚ} (n : ℕ) (hc1 : c < 1) (hn : 0 < n) :
    ⌊c * (n : ℚ)⌋ < (n : ℤ) := by
  apply Int.floor_lt.mpr
  push_cast
  calc c * (n : ℚ) < 1 * (n : ℚ) :=
        mul_lt_mul_of_pos_right hc1 (by exact_mod_cast hn)
    _ = (n : ℚ) := one_mul _

lemma floor_conf_nonneg {c : ℚ} (n : ℕ) (hc0 : 0 < c) :
    0 ≤ ⌊c * (n : ℚ)⌋ :=
  Int.floor_nonneg.mpr (mul_nonneg hc0.le (by positivity))

/-- C1: for 0 < c < 1 and a non-empty returns array, calculateVaR is the
absolute value of the element of the ascending-sorted returns at index
Math.floor(c * n), that index being in bounds; the empty array gives 0. -/
theorem calculateVaR_quantile (returns : List ℚ) (c : ℚ)
    (hc0 : 0 < c) (hc1 : c < 1) :
    (returns = [] → calculateVaR returns c = 0) ∧
    (returns ≠ [] →
      (⌊c * (returns.length : ℚ)⌋).toNat < returns.length ∧
      calculateVaR returns c =
        |(List.insertionSort (· ≤ ·) returns).getD
          (⌊c * (returns.length : ℚ)⌋).toNat 0|) := by
  constructor
  · intro h
    subst h
    rfl
  · intro hne
    have hn : 0 < returns.length := List.length_pos.mpr hne
    have hf0 : 0 ≤ ⌊c * (returns.length : ℚ)⌋ := floor_conf_nonneg _ hc0
    have hflt : ⌊c * (returns.length : ℚ)⌋ < (returns.length : ℤ) :=
      floor_lt_length _ hc1 hn
    have hidx : (⌊c * (returns.length : ℚ)⌋).toNat < returns.length := by omega
    refine ⟨hidx, ?_⟩
    have hlen : (List.insertionSort (· ≤ ·) returns).length = returns.length :=
      List.length_insertionSort _ _
    unfold calculateVaR
    rw [if_neg (by omega), hlen]
    have hidx' : (⌊c * (returns.length : ℚ)⌋).toNat <
        (List.insertionSort (· ≤ ·) returns).length := by rw [hlen]; exact hidx
    rw [jsIndex, dif_pos ⟨hf0, hidx'⟩, abs_jsOrZeroQ_some,
      List.getD_eq_getElem _ _ hidx', List.get_eq_getElem]

/-- Witness for C1 at returns [3, -2, 5] and confidence 1/2: the index is
⌊3/2⌋ = 1 and the sorted array is [-2, 3, 5], so the VaR is |3| = 3. -/
theorem calculateVaR_quantile_witness :
    (0 : ℚ) < 1 / 2 ∧ (1 / 2 : ℚ) < 1 ∧
    (([3, -2, 5] : List ℚ) ≠ [] →
      (⌊(1 / 2 : ℚ) * (([3, -2, 5] : List ℚ).length : ℚ)⌋).toNat <
        ([3, -2, 5] : List ℚ).length ∧
      calculateVaR [3, -2, 5] (1 / 2) =
        |(List.insertionSort (· ≤ ·) ([3, -2, 5] : List ℚ)).getD
          (⌊(1 / 2 : ℚ) * (([3, -2, 5] : List ℚ).length : ℚ)⌋).toNat 0|) :=
  ⟨by norm_num, by norm_num,
    (calculateVaR_quantile [3, -2, 5] (1 / 2) (by norm_num) (by norm_num)).2⟩

lemma jsDiv_num_num (a b : ℚ) : JsNum.div (JsNum.num a) (JsNum.num b) =
    if b = 0 then (if a = 0 then JsNum.nan else if 0 < a then JsNum.inf else JsNum.ninf)
    else JsNum.num (a / b) := rfl

/-- C2: when the VaR index Math.floor(c * n) is at least 1, calculateCVaR is
the absolute value of the arithmetic mean of the Math.floor(c * n) smallest
returns, i.e. of the sorted elements with index strictly below the VaR
index. -/
theorem calculateCVaR_tail_mean (returns : List ℚ) (c : ℚ)
    (hc0 : 0 < c) (hc1 : c < 1)
    (h1 : 1 ≤ ⌊c * (returns.length : ℚ)⌋) :
    calculateCVaR returns c =
      JsNum.num |((List.insertionSort (· ≤ ·) returns).take
          (⌊c * (returns.length : ℚ)⌋).toNat).sum /
        ((⌊c * (returns.length : ℚ)⌋).toNat : ℚ)| := by
  have hn : 0 < returns.length := by
    by_contra h
    have h0 : returns.length = 0 := by omega
    rw [h0] at h1
    simp at h1
  have hf0 : 0 ≤ ⌊c * (returns.length : ℚ)⌋ := le_trans (by norm_num) h1
  have hflt : ⌊c * (returns.length : ℚ)⌋ < (returns.length : ℤ) :=
    floor_lt_length _ hc1 hn
  have hlen : (List.insertionSort (· ≤ ·) returns).length = returns.length :=
    List.length_insertionSort _ _
  unfold calculateCVaR
  rw [if_neg (by omega), hlen]
  have hslice : jsSlice0 (List.insertionSort (· ≤ ·) returns)
      ⌊c * (returns.length : ℚ)⌋ =
      (List.insertionSort (· ≤ ·) returns).take
        (⌊c * (returns.length : ℚ)⌋).toNat := by
    rw [jsSlice0, if_pos hf0]
  rw [hslice]
  have htlen : ((List.insertionSort (· ≤ ·) returns).take
      (⌊c * (returns.length : ℚ)⌋).toNat).length =
      (⌊c * (returns.length : ℚ)⌋).toNat := by
    rw [List.length_take, hlen]
    omega
  rw [htlen]
  have hne0 : ((⌊c * (returns.length : ℚ)⌋).toNat : ℚ) ≠ 0 :=
    Nat.cast_ne_zero.mpr (by omega)
  rw [jsDiv_num_num, if_neg hne0, abs_orZero_num]

/-- Witness for C2 at returns [1, -4] and confidence 1/2: the VaR index is
⌊1⌋ = 1 and the tail mean is -4, so the CVaR is |−4| = 4. -/
theorem calculateCVaR_tail_mean_witness :
    (0 : ℚ) < 1 / 2 ∧ (1 / 2 : ℚ) < 1 ∧
    1 ≤ ⌊(1 / 2 : ℚ) * (([1, -4] : List ℚ).length : ℚ)⌋ ∧
    calculateCVaR [1, -4] (1 / 2) =
      JsNum.num |((List.insertionSort (· ≤ ·) ([1, -4] : List ℚ)).take
          (⌊(1 / 2 : ℚ) * (([1, -4] : List ℚ).length : ℚ)⌋).toNat).sum /
        ((⌊(1 / 2 : ℚ) * (([1, -4] : List ℚ).length : ℚ)⌋).toNat : ℚ)| :=
  ⟨by norm_num, by norm_num, by norm_num,
    calculateCVaR_tail_mean [1, -4] (1 / 2) (by norm_num) (by norm_num) (by norm_num)⟩

/-- C10: when the VaR index Math.floor(c * n) is 0 the tail is empty, its
mean is the NaN 0/0, and the `|| 0` fallback makes calculateCVaR return 0
rather than fail. -/
theorem calculateCVaR_empty_tail_zero (returns : List ℚ) (c : ℚ)
    (hne : returns ≠ []) (hc0 : 0 < c) (hc1 : c < 1)
    (h0 : ⌊c * (returns.length : ℚ)⌋ = 0) :
    calculateCVaR returns c = JsNum.num 0 := by
  have hn : 0 < returns.length := List.length_pos.mpr hne
  have hlen : (List.insertionSort (· ≤ ·) returns).length = returns.length :=
    List.length_insertionSort _ _
  unfold calculateCVaR
  rw [if_neg (by omega), hlen, h0]
  have hslice : jsSlice0 (List.insertionSort (· ≤ ·) returns) 0 = [] := by
    rw [jsSlice0, if_pos le_rfl]
    simp
  rw [hslice, List.sum_nil, List.length_nil]
  decide

/-- Witness for C10 at returns [5] and confidence 1/2: the VaR index is
⌊1/2⌋ = 0 and the CVaR is 0. -/
theorem calculateCVaR_empty_tail_zero_witness :
    (([5] : List ℚ) ≠ []) ∧ (0 : ℚ) < 1 / 2 ∧ (1 / 2 : ℚ) < 1 ∧
    ⌊(1 / 2 : ℚ) * (([5] : List ℚ).length : ℚ)⌋ = 0 ∧
    calculateCVaR [5] (1 / 2) = JsNum.num 0 :=
  ⟨by decide, by norm_num, by norm_num, by norm_num,
    calculateCVaR_empty_tail_zero [5] (1 / 2) (by decide) (by norm_num)
      (by norm_num) (by norm_num)⟩

/-- The local `volatility` of calculateSharpeRatio in RiskAnalysis.js:
Math.sqrt of the mean of the squared deviations of the returns from their
mean, i.e. the population standard deviation of the returns. -/
noncomputable def volatility (returns : List ℝ) : ℝ :=
  Real.sqrt ((returns.map
    (fun b => (b - returns.sum / (returns.length : ℝ)) ^ 2)).sum /
    (returns.length : ℝ))

/-- calculateSharpeRatio from RiskAnalysis.js: mean return minus the
risk-free rate de-annualised by 252, divided by the volatility; 0 for an
empty array or zero volatility. -/
noncomputable def calculateSharpeRatio (returns : List ℝ) (riskFreeRate : ℝ) : ℝ :=
  if returns.length = 0 then 0
  else if volatility returns = 0 then 0
  else (returns.sum / (returns.length : ℝ) - riskFreeRate / 252) / volatility returns

/-- C4: for a non-empty returns array with nonzero population standard
deviation, calculateSharpeRatio is the mean excess return over the
de-annualised risk-free rate divided by that standard deviation. -/
theorem calculateSharpeRatio_formula (returns : List ℝ) (riskFreeRate : ℝ)
    (hne : returns ≠ []) (hv : volatility returns ≠ 0) :
    calculateSharpeRatio returns riskFreeRate =
      (returns.sum / (returns.length : ℝ) - riskFreeRate / 252) /
        volatility returns := by
  unfold calculateSharpeRatio
  rw [if_neg (fun h => hne (List.length_eq_zero.mp h)), if_neg hv]

/-- Witness for C4 at returns [1, -1] and risk-free rate 0: the mean is 0,
the population standard deviation is 1, and the Sharpe ratio is 0. -/
theorem calculateSharpeRatio_formula_witness :
    (([1, -1] : List ℝ) ≠ []) ∧ volatility [(1 : ℝ), -1] ≠ 0 ∧
    calculateSharpeRatio [(1 : ℝ), -1] 0 =
      (([1, -1] : List ℝ).sum / (([1, -1] : List ℝ).length : ℝ) - 0 / 252) /
        volatility [(1 : ℝ), -1] := by
  have hne : ([1, -1] : List ℝ) ≠ [] := by simp
  have hvol : volatility [(1 : ℝ), -1] = 1 := by
    unfold volatility
    norm_num [List.sum_cons, List.sum_nil, List.map_cons, List.map_nil,
      List.length_cons, List.length_nil, Real.sqrt_one]
  have hv : volatility [(1 : ℝ), -1] ≠ 0 := by rw [hvol]; norm_num
  exact ⟨hne, hv, calculateSharpeRatio_formula [1, -1] 0 hne hv⟩

/-- Daily percentage returns computed from a price series, as in
calculateCorrelation of RiskAnalysis.js:
`prices.slice(1).map((price, i) => (price - prices[i]) / prices[i])`. -/
noncomputable def pctReturns (prices : List ℝ) : List ℝ :=
  List.zipWith (fun prev cur => (cur - prev) / prev) prices prices.tail

/-- The local `mean1` (resp. `mean2`) of calculateCorrelation: the mean of a
price series' percentage returns. -/
noncomputable def corrMean (prices : List ℝ) : ℝ :=
  (pctReturns prices).sum / ((pctReturns prices).length : ℝ)

/-- The `numerator` accumulated by calculateCorrelation's loop.  The JS loop
runs i over returns1.length and reads returns2[i]; the guard of
calculateCorrelation ensures the two return arrays have equal length, so the
loop visits exactly the positions of the zip. -/
noncomputable def corrNumerator (p1 p2 : List ℝ) : ℝ :=
  (((pctReturns p1).zip (pctReturns p2)).map
    (fun pr => (pr.1 - corrMean p1) * (pr.2 - corrMean p2))).sum

/-- The `sumSq1` accumulated by calculateCorrelation's loop (`diff1 * diff1`
summed over the same index range as the numerator). -/
noncomputable def corrSumSq1 (p1 p2 : List ℝ) : ℝ :=
  (((pctReturns p1).zip (pctReturns p2)).map
    (fun pr => (pr.1 - corrMean p1) * (pr.1 - corrMean p1))).sum

/-- The `sumSq2` accumulated by calculateCorrelation's loop (`diff2 * diff2`
summed over the same index range as the numerator). -/
noncomputable def corrSumSq2 (p1 p2 : List ℝ) : ℝ :=
  (((pctReturns p1).zip (pctReturns p2)).map
    (fun pr => (pr.2 - corrMean p2) * (pr.2 - corrMean p2))).sum

/-- calculateCorrelation from RiskAnalysis.js: Pearson correlation of the
percentage returns of two equal-length price series, 0 when the lengths
differ, the arrays are empty, or the denominator
Math.sqrt(sumSq1 * sumSq2) is zero. -/
noncomputable def calculateCorrelation (prices1 prices2 : List ℝ) : ℝ :=
  if prices1.length ≠ prices2.length ∨ prices1.length = 0 then 0
  else
    if Real.sqrt (corrSumSq1 prices1 prices2 * corrSumSq2 prices1 prices2) = 0 then 0
    else corrNumerator prices1 prices2 /
      Real.sqrt (corrSumSq1 prices1 prices2 * corrSumSq2 prices1 prices2)

lemma zip_map_sum_swap (f : ℝ → ℝ → ℝ) :
    ∀ l1 l2 : List ℝ,
      ((l1.zip l2).map (fun pr => f pr.1 pr.2)).sum =
        ((l2.zip l1).map (fun pr => f pr.2 pr.1)).sum := by
  intro l1
  induction l1 with
  | nil => intro l2; cases l2 <;> simp
  | cons a l1 ih =>
      intro l2
      cases l2 with
      | nil => simp
      | cons b l2 => simp [List.zip_cons_cons, ih l2]

lemma corrNumerator_comm (p q : List ℝ) : corrNumerator q p = corrNumerator p q := by
  unfold corrNumerator
  rw [zip_map_sum_swap (fun x y => (x - corrMean q) * (y - corrMean p))]
  have h : (fun pr : ℝ × ℝ => (pr.2 - corrMean q) * (pr.1 - corrMean p)) =
      (fun pr : ℝ × ℝ => (pr.1 - corrMean p) * (pr.2 - corrMean q)) := by
    funext pr
    ring
  rw [h]

lemma corrSumSq_swap (p q : List ℝ) : corrSumSq2 q p = corrSumSq1 p q := by
  unfold corrSumSq1 corrSumSq2
  rw [zip_map_sum_swap (fun x y => (y - corrMean p) * (y - corrMean p))]

lemma corrSumSq_swap' (p q : List ℝ) : corrSumSq1 q p = corrSumSq2 p q := by
  unfold corrSumSq1 corrSumSq2
  rw [zip_map_sum_swap (fun x y => (x - corrMean q) * (x - corrMean q))]

lemma calculateCorrelation_comm (p q : List ℝ) :
    calculateCorrelation p q = calculateCorrelation q p := by
  unfold calculateCorrelation
  by_cases hl : p.length = q.length
  · by_cases h0 : p.length = 0
    · rw [if_pos (Or.inr h0), if_pos (Or.inr (hl ▸ h0))]
    · rw [if_neg (not_or.mpr ⟨fun h => h hl, h0⟩),
        if_neg (not_or.mpr ⟨fun h => h hl.symm, fun h => h0 (hl.trans h)⟩),
        corrNumerator_comm p q, corrSumSq_swap p q, corrSumSq_swap' p q,
        mul_comm (corrSumSq2 p q) (corrSumSq1 p q)]
  · rw [if_pos (Or.inl hl), if_pos (Or.inl (fun h => hl h.symm))]

/-- JavaScript object lookup `priceData[symbol]`, modelled on the association
list: the value of the first (and, keys of a JS object being unique, only)
entry with the given key, or the empty list when the key is absent. -/
def lookupPD (priceData : List (String × List ℝ)) (s : String) : List ℝ :=
  ((priceData.find? (fun kv => kv.1 == s)).map Prod.snd).getD []

/-- calculateCorrelationMatrix from RiskAnalysis.js: for symbols the keys of
priceData (in order), build the square matrix whose (i, j) entry is 1 on the
diagonal and calculateCorrelation of the i-th and j-th symbols' price arrays
off it; returns the matrix together with the symbol list. -/
noncomputable def calculateCorrelationMatrix
    (priceData : List (String × List ℝ)) : List (List ℝ) × List String :=
  ((List.range (priceData.map Prod.fst).length).map (fun i =>
    (List.range (priceData.map Prod.fst).length).map (fun j =>
      if i = j then 1
      else calculateCorrelation
        (lookupPD priceData ((priceData.map Prod.fst).getD i ""))
        (lookupPD priceData ((priceData.map Prod.fst).getD j "")))),
   priceData.map Prod.fst)

lemma getD_range_map {α : Type} (f : ℕ → α) (n i : ℕ) (h : i < n) (d : α) :
    ((List.range n).map f).getD i d = f i := by
  have hlen : i < ((List.range n).map f).length := by simpa using h
  rw [List.getD_eq_getElem _ _ hlen, List.getElem_map, List.getElem_range]

lemma correlationMatrix_entry (priceData : List (String × List ℝ)) (i j : ℕ)
    (hi : i < priceData.length) (hj : j < priceData.length) :
    ((calculateCorrelationMatrix priceData).1.getD i []).getD j 0 =
      (if i = j then 1
       else calculateCorrelation
         (lookupPD priceData ((priceData.map Prod.fst).getD i ""))
         (lookupPD priceData ((priceData.map Prod.fst).getD j ""))) := by
  unfold calculateCorrelationMatrix
  rw [getD_range_map _ _ i (by simpa using hi),
    getD_range_map _ _ j (by simpa using hj)]

/-- C8: the matrix returned by calculateCorrelationMatrix is square of
dimension the number of symbols, carries 1 at every diagonal entry, and is
symmetric, because calculateCorrelation is symmetric in its two (equal
length) price arrays. -/
theorem correlationMatrix_props (priceData : List (String × List ℝ)) :
    (calculateCorrelationMatrix priceData).1.length = priceData.length ∧
    (∀ row ∈ (calculateCorrelationMatrix priceData).1,
      row.length = priceData.length) ∧
    (∀ i < priceData.length,
      ((calculateCorrelationMatrix priceData).1.getD i []).getD i 0 = 1) ∧
    (∀ i < priceData.length, ∀ j < priceData.length,
      ((calculateCorrelationMatrix priceData).1.getD i []).getD j 0 =
        ((calculateCorrelationMatrix priceData).1.getD j []).getD i 0) ∧
    (∀ p q : List ℝ, p.length = q.length →
      calculateCorrelation p q = calculateCorrelation q p) := by
  refine ⟨?_, ?_, ?_, ?_, ?_⟩
  · simp [calculateCorrelationMatrix]
  · intro row hrow
    rcases List.mem_map.mp hrow with ⟨i, _, rfl⟩
    simp
  · intro i hi
    rw [correlationMatrix_entry priceData i i hi hi, if_pos rfl]
  · intro i hi j hj
    rw [correlationMatrix_entry priceData i j hi hj,
      correlationMatrix_entry priceData j i hj hi]
    by_cases hij : i = j
    · subst hij
      rfl
    · rw [if_neg hij, if_neg (fun h => hij h.symm),
        calculateCorrelation_comm]
  · intro p q _
    exact calculateCorrelation_comm p q

/-- Witness for C8 at a concrete two-symbol price map. -/
theorem correlationMatrix_props_witness :
    (calculateCorrelationMatrix [("A", [1, 2]), ("B", [2, 4])]).1.length = 2 ∧
    ((calculateCorrelationMatrix [("A", [1, 2]), ("B", [2, 4])]).1.getD 0 []).getD 0 0 = 1 ∧
    ((calculateCorrelationMatrix [("A", [1, 2]), ("B", [2, 4])]).1.getD 0 []).getD 1 0 =
      ((calculateCorrelationMatrix [("A", [1, 2]), ("B", [2, 4])]).1.getD 1 []).getD 0 0 ∧
    calculateCorrelation [(1 : ℝ), 2] [3, 5] = calculateCorrelation [(3 : ℝ), 5] [1, 2] := by
  have h := correlationMatrix_props [("A", [1, 2]), ("B", [2, 4])]
  exact ⟨h.1, h.2.2.1 0 (by norm_num), h.2.2.2.1 0 (by norm_num) 1 (by norm_num),
    h.2.2.2.2 [1, 2] [3, 5] rfl⟩

lemma jsAdd_num_num (a b : ℚ) :
    JsNum.add (JsNum.num a) (JsNum.num b) = JsNum.num (a + b) := rfl

lemma jsSub_num_num (a b : ℚ) :
    JsNum.sub (JsNum.num a) (JsNum.num b) = JsNum.num (a - b) := rfl

/-- Price changes `prices[i] - prices[i - 1]` computed by the first loop of
calculateRSI in the TechnicalAnalysis page. -/
def priceChanges (prices : List ℚ) : List ℚ :=
  List.zipWith (fun a b => b - a) prices prices.tail

/-- The gains array of calculateRSI: each positive change, 0 otherwise. -/
def gainsOf (prices : List ℚ) : List ℚ :=
  (priceChanges prices).map (fun c => if 0 < c then c else 0)

/-- The losses array of calculateRSI: Math.abs of each negative change,
0 otherwise. -/
def lossesOf (prices : List ℚ) : List ℚ :=
  (priceChanges prices).map (fun c => if c < 0 then |c| else 0)

/-- One Wilder smoothing step `(avg * (period - 1) + x) / period` of
calculateRSI's main loop. -/
def wilderAvg (period : ℕ) (avg x : ℚ) : ℚ :=
  (avg * ((period : ℚ) - 1) + x) / (period : ℚ)

/-- The value `100 - (100 / (1 + avgGain / avgLoss))` pushed by each
iteration of calculateRSI, computed with JavaScript arithmetic: when avgLoss
is 0, the quotient rs is Infinity (avgGain positive, value 100) or the NaN
0/0 (avgGain also 0, value NaN). -/
def rsiValue (avgGain avgLoss : ℚ) : JsNum :=
  JsNum.sub (JsNum.num 100) (JsNum.div (JsNum.num 100)
    (JsNum.add (JsNum.num 1) (JsNum.div (JsNum.num avgGain) (JsNum.num avgLoss))))

/-- The main loop of calculateRSI over the gain/loss pairs from index
`period` on, carrying the smoothed averages. -/
def rsiLoop (period : ℕ) (avgGain avgLoss : ℚ) : List (ℚ × ℚ) → List JsNum
  | [] => []
  | gl :: rest =>
      rsiValue (wilderAvg period avgGain gl.1) (wilderAvg period avgLoss gl.2) ::
        rsiLoop period (wilderAvg period avgGain gl.1)
          (wilderAvg period avgLoss gl.2) rest

/-- calculateRSI from the TechnicalAnalysis page: fewer than period + 1
prices give []; otherwise the initial averages are the means of the first
`period` gains and losses and the loop runs over the remaining gain/loss
pairs.  The initial division by `period` is taken as rational division; the
claims only use period ≥ 1, where this agrees with JavaScript (period 0
would make the initial averages NaN there). -/
def calculateRSI (prices : List ℚ) (period : ℕ) : List JsNum :=
  if prices.length < period + 1 then []
  else
    rsiLoop period (((gainsOf prices).take period).sum / (period : ℚ))
      (((lossesOf prices).take period).sum / (period : ℚ))
      (((gainsOf prices).drop period).zip ((lossesOf prices).drop period))

/-- A JavaScript number lying in the closed interval [0, 100]; NaN and the
infinities do not. -/
def JsNum.inRange0100 : JsNum → Prop
  | .num q => 0 ≤ q ∧ q ≤ 100
  | _ => False

instance (v : JsNum) : Decidable v.inRange0100 :=
  match v with
  | .num q => inferInstanceAs (Decidable (0 ≤ q ∧ q ≤ 100))
  | .inf => inferInstanceAs (Decidable False)
  | .ninf => inferInstanceAs (Decidable False)
  | .nan => inferInstanceAs (Decidable False)

lemma rsiLoop_length (period : ℕ) :
    ∀ (l : List (ℚ × ℚ)) (a b : ℚ), (rsiLoop period a b l).length = l.length := by
  intro l
  induction l with
  | nil => intro a b; rfl
  | cons gl rest ih => intro a b; simp [rsiLoop, ih]

lemma gainsOf_length (prices : List ℚ) :
    (gainsOf prices).length = prices.length - 1 := by
  simp [gainsOf, priceChanges]

lemma lossesOf_length (prices : List ℚ) :
    (lossesOf prices).length = prices.length - 1 := by
  simp [lossesOf, priceChanges]

lemma gainsOf_nonneg (prices : List ℚ) : ∀ x ∈ gainsOf prices, 0 ≤ x := by
  intro x hx
  rcases List.mem_map.mp hx with ⟨c, _, rfl⟩
  by_cases h : 0 < c
  · simpa [h] using h.le
  · simp [h]

lemma lossesOf_nonneg (prices : List ℚ) : ∀ x ∈ lossesOf prices, 0 ≤ x := by
  intro x hx
  rcases List.mem_map.mp hx with ⟨c, _, rfl⟩
  by_cases h : c < 0
  · simpa [h] using abs_nonneg c
  · simp [h]

lemma wilderAvg_nonneg {period : ℕ} (hp : 1 ≤ period) {avg x : ℚ}
    (ha : 0 ≤ avg) (hx : 0 ≤ x) : 0 ≤ wilderAvg period avg x := by
  unfold wilderAvg
  apply div_nonneg _ (by positivity)
  apply add_nonneg _ hx
  apply mul_nonneg ha
  have h1 : (1 : ℚ) ≤ (period : ℚ) := by exact_mod_cast hp
  linarith

lemma rsiValue_cases (ag al : ℚ) (hg : 0 ≤ ag) (hl : 0 ≤ al) :
    rsiValue ag al = JsNum.nan ∨ (rsiValue ag al).inRange0100 := by
  by_cases hal : al = 0
  · by_cases hag : ag = 0
    · left
      subst hal
      subst hag
      decide
    · right
      have hag' : 0 < ag := lt_of_le_of_ne hg (Ne.symm hag)
      unfold rsiValue
      rw [jsDiv_num_num ag al, if_pos hal, if_neg hag, if_pos hag']
      show (JsNum.num (100 - 0)).inRange0100
      exact ⟨by norm_num, by norm_num⟩
  · right
    have hal' : 0 < al := lt_of_le_of_ne hl (Ne.symm hal)
    have hr : 0 ≤ ag / al := div_nonneg hg hl
    have hd : (0 : ℚ) < 1 + ag / al := by linarith
    unfold rsiValue
    rw [jsDiv_num_num ag al, if_neg hal, jsAdd_num_num, jsDiv_num_num,
      if_neg (ne_of_gt hd), jsSub_num_num]
    have hle : 100 / (1 + ag / al) ≤ 100 := by
      rw [div_le_iff₀ hd]
      nlinarith
    have hpos : 0 < 100 / (1 + ag / al) := by positivity
    exact ⟨by linarith, by linarith⟩

lemma rsiLoop_mem (period : ℕ) (hp : 1 ≤ period) :
    ∀ (l : List (ℚ × ℚ)) (a b : ℚ), 0 ≤ a → 0 ≤ b →
      (∀ gl ∈ l, 0 ≤ gl.1 ∧ 0 ≤ gl.2) →
      ∀ v ∈ rsiLoop period a b l, v = JsNum.nan ∨ v.inRange0100 := by
  intro l
  induction l with
  | nil => intro a b _ _ _ v hv; simp [rsiLoop] at hv
  | cons gl rest ih =>
      intro a b ha hb hmem v hv
      simp only [rsiLoop] at hv
      have hg1 : 0 ≤ gl.1 := (hmem gl (List.mem_cons_self _ _)).1
      have hg2 : 0 ≤ gl.2 := (hmem gl (List.mem_cons_self _ _)).2
      rcases List.mem_cons.mp hv with rfl | hv'
      · exact rsiValue_cases _ _ (wilderAvg_nonneg hp ha hg1)
          (wilderAvg_nonneg hp hb hg2)
      · exact ih _ _ (wilderAvg_nonneg hp ha hg1) (wilderAvg_nonneg hp hb hg2)
          (fun gl' h => hmem gl' (List.mem_cons_of_mem _ h)) v hv'

/-- Counterexample to C5 as stated: sixteen equal prices with the default
period 14 (so n = period + 2) make every gain and loss zero, the smoothed
averages stay 0, rs is the NaN 0/0, and the single returned value is NaN,
which does not lie in [0, 100]. -/
theorem calculateRSI_range_counterexample :
    ([5, 5, 5, 5, 5, 5, 5, 5, 5, 5, 5, 5, 5, 5, 5, 5] : List ℚ).length = 14 + 2 ∧
    ¬ (∀ v ∈ calculateRSI ([5, 5, 5, 5, 5, 5, 5, 5, 5, 5, 5, 5, 5, 5, 5, 5] : List ℚ) 14,
        v.inRange0100) := by
  have hg : gainsOf ([5, 5, 5, 5, 5, 5, 5, 5, 5, 5, 5, 5, 5, 5, 5, 5] : List ℚ) =
      [0, 0, 0, 0, 0, 0, 0, 0, 0, 0, 0, 0, 0, 0, 0] := by
    norm_num [gainsOf, priceChanges]
  have hl : lossesOf ([5, 5, 5, 5, 5, 5, 5, 5, 5, 5, 5, 5, 5, 5, 5, 5] : List ℚ) =
      [0, 0, 0, 0, 0, 0, 0, 0, 0, 0, 0, 0, 0, 0, 0] := by
    norm_num [lossesOf, priceChanges]
  have hw : wilderAvg 14 (0 : ℚ) 0 = 0 := by
    unfold wilderAvg
    norm_num
  have hrv : rsiValue (0 : ℚ) 0 = JsNum.nan := by
    unfold rsiValue
    rw [jsDiv_num_num, if_pos rfl, if_pos rfl]
    rfl
  have hrsi : calculateRSI ([5, 5, 5, 5, 5, 5, 5, 5, 5, 5, 5, 5, 5, 5, 5, 5] : List ℚ) 14 =
      [JsNum.nan] := by
    unfold calculateRSI
    rw [if_neg (by norm_num), hg, hl]
    norm_num
    simp only [rsiLoop]
    norm_num [hw, hrv]
  refine ⟨by norm_num, ?_⟩
  intro hall
  exact hall JsNum.nan (by rw [hrsi]; exact List.mem_singleton_self _)

/-- C5 (amended): for n < period + 1 calculateRSI returns []; for
n ≥ period + 1 it returns exactly n - period - 1 values; and (period ≥ 1)
every returned value either is NaN (the 0/0 case, when the smoothed average
gain and loss are both zero) or lies in [0, 100]. -/
theorem calculateRSI_length_range (prices : List ℚ) (period : ℕ) (hp : 1 ≤ period) :
    (prices.length < period + 1 → calculateRSI prices period = []) ∧
    (period + 1 ≤ prices.length →
      (calculateRSI prices period).length = prices.length - period - 1) ∧
    (∀ v ∈ calculateRSI prices period, v = JsNum.nan ∨ v.inRange0100) := by
  refine ⟨?_, ?_, ?_⟩
  · intro h
    unfold calculateRSI
    rw [if_pos h]
  · intro h
    unfold calculateRSI
    rw [if_neg (by omega), rsiLoop_length, List.length_zip, List.length_drop,
      List.length_drop, gainsOf_length, lossesOf_length]
    omega
  · intro v hv
    unfold calculateRSI at hv
    by_cases h : prices.length < period + 1
    · rw [if_pos h] at hv
      simp at hv
    · rw [if_neg h] at hv
      refine rsiLoop_mem period hp _ _ _ ?_ ?_ ?_ v hv
      · exact div_nonneg
          (List.sum_nonneg fun x hx =>
            gainsOf_nonneg prices x (List.mem_of_mem_take hx))
          (by positivity)
      · exact div_nonneg
          (List.sum_nonneg fun x hx =>
            lossesOf_nonneg prices x (List.mem_of_mem_take hx))
          (by positivity)
      · intro gl hgl
        obtain ⟨g, l⟩ := gl
        have hz := List.of_mem_zip hgl
        exact ⟨gainsOf_nonneg prices g (List.mem_of_mem_drop hz.1),
          lossesOf_nonneg prices l (List.mem_of_mem_drop hz.2)⟩

/-- Witness for the amended C5 at prices [1, 2, 3] and period 1: one RSI
value is returned (3 - 1 - 1 = 1) and it is NaN or lies in [0, 100]. -/
theorem calculateRSI_length_range_witness :
    (1 + 1 ≤ ([1, 2, 3] : List ℚ).length →
      (calculateRSI [1, 2, 3] 1).length = ([1, 2, 3] : List ℚ).length - 1 - 1) ∧
    (∀ v ∈ calculateRSI ([1, 2, 3] : List ℚ) 1, v = JsNum.nan ∨ v.inRange0100) :=
  ⟨(calculateRSI_length_range [1, 2, 3] 1 (le_refl 1)).2.1,
    (calculateRSI_length_range [1, 2, 3] 1 (le_refl 1)).2.2⟩

/-- The recursion of calculateEMA after the seed: each new value is
`prices[i] * multiplier + ema[i - 1] * (1 - multiplier)`, with `prev` the
previous EMA value. -/
def emaFrom (multiplier prev : ℚ) : List ℚ → List ℚ
  | [] => []
  | p :: ps =>
      (p * multiplier + prev * (1 - multiplier)) ::
        emaFrom multiplier (p * multiplier + prev * (1 - multiplier)) ps

/-- calculateEMA from the TechnicalAnalysis page: the EMA seeded with the
first price, with multiplier 2 / (period + 1).  The embedding returns [] for
an empty price array (JavaScript would produce the one-element array
[undefined]); calculateMACD only reaches calculateEMA with a non-empty
array when slowPeriod ≥ 1, the regime of the claims. -/
def calculateEMA (prices : List ℚ) (period : ℕ) : List ℚ :=
  match prices with
  | [] => []
  | p :: ps => p :: emaFrom (2 / ((period : ℚ) + 1)) p ps

/-- The MACD line `emaFast.map((fast, i) => fast - emaSlow[i])` of
calculateMACD, modelled as zipWith over the two EMA arrays (which have equal
length, that of the price array). -/
def macdLine (prices : List ℚ) (fastPeriod slowPeriod : ℕ) : List ℚ :=
  List.zipWith (fun fast slow => fast - slow)
    (calculateEMA prices fastPeriod) (calculateEMA prices slowPeriod)

/-- calculateMACD from the TechnicalAnalysis page: fewer than slowPeriod
prices give three empty arrays; otherwise the MACD line, its signalPeriod
EMA, and the histogram `macd[i] - signal[i]` (modelled as zipWith, the two
arrays having equal length). -/
def calculateMACD (prices : List ℚ) (fastPeriod slowPeriod signalPeriod : ℕ) :
    List ℚ × List ℚ × List ℚ :=
  if prices.length < slowPeriod then ([], [], [])
  else
    (macdLine prices fastPeriod slowPeriod,
     calculateEMA (macdLine prices fastPeriod slowPeriod) signalPeriod,
     List.zipWith (fun m s => m - s) (macdLine prices fastPeriod slowPeriod)
       (calculateEMA (macdLine prices fastPeriod slowPeriod) signalPeriod))

lemma emaFrom_length (m : ℚ) :
    ∀ (l : List ℚ) (prev : ℚ), (emaFrom m prev l).length = l.length := by
  intro l
  induction l with
  | nil => intro prev; rfl
  | cons p ps ih => intro prev; simp [emaFrom, ih]

lemma calculateEMA_length (prices : List ℚ) (period : ℕ) :
    (calculateEMA prices period).length = prices.length := by
  cases prices with
  | nil => rfl
  | cons p ps => simp [calculateEMA, emaFrom_length]

lemma macdLine_length (prices : List ℚ) (fastPeriod slowPeriod : ℕ) :
    (macdLine prices fastPeriod slowPeriod).length = prices.length := by
  simp [macdLine, calculateEMA_length]

lemma getD_zipWith (f : ℚ → ℚ → ℚ) :
    ∀ (l1 l2 : List ℚ) (i : ℕ), i < l1.length → i < l2.length →
      (List.zipWith f l1 l2).getD i 0 = f (l1.getD i 0) (l2.getD i 0) := by
  intro l1
  induction l1 with
  | nil => intro l2 i h1 _; simp at h1
  | cons a l1 ih =>
      intro l2 i h1 h2
      cases l2 with
      | nil => simp at h2
      | cons b l2 =>
          cases i with
          | zero => rfl
          | succ i =>
              simp only [List.zipWith_cons_cons, List.getD_cons_succ]
              exact ih l2 i (by simpa using h1) (by simpa using h2)

lemma emaFrom_getD (m : ℚ) :
    ∀ (ps : List ℚ) (prev : ℚ) (i : ℕ), i < ps.length →
      (emaFrom m prev ps).getD i 0 =
        ps.getD i 0 * m +
          (if i = 0 then prev else (emaFrom m prev ps).getD (i - 1) 0) * (1 - m) := by
  intro ps
  induction ps with
  | nil => intro prev i h; simp at h
  | cons p ps ih =>
      intro prev i h
      cases i with
      | zero => rfl
      | succ j =>
          simp only [emaFrom, List.getD_cons_succ]
          rw [ih (p * m + prev * (1 - m)) j (by simpa using h)]
          cases j with
          | zero => simp
          | succ k => simp [emaFrom]

/-- C7: for slowPeriod ≥ 1 and at least slowPeriod prices, calculateMACD
returns three arrays of the price array's length with
macd[i] = emaFast[i] - emaSlow[i] and histogram[i] = macd[i] - signal[i];
fewer prices give three empty arrays; and every EMA obeys ema[0] = x[0] and
ema[i] = a * x[i] + (1 - a) * ema[i-1] with a = 2 / (period + 1). -/
theorem calculateMACD_shape (prices : List ℚ)
    (fastPeriod slowPeriod signalPeriod : ℕ) (hs : 1 ≤ slowPeriod) :
    (prices.length < slowPeriod →
      calculateMACD prices fastPeriod slowPeriod signalPeriod = ([], [], [])) ∧
    (slowPeriod ≤ prices.length →
      (calculateMACD prices fastPeriod slowPeriod signalPeriod).1.length =
        prices.length ∧
      (calculateMACD prices fastPeriod slowPeriod signalPeriod).2.1.length =
        prices.length ∧
      (calculateMACD prices fastPeriod slowPeriod signalPeriod).2.2.length =
        prices.length ∧
      (∀ i < prices.length,
        (calculateMACD prices fastPeriod slowPeriod signalPeriod).1.getD i 0 =
          (calculateEMA prices fastPeriod).getD i 0 -
            (calculateEMA prices slowPeriod).getD i 0) ∧
      (∀ i < prices.length,
        (calculateMACD prices fastPeriod slowPeriod signalPeriod).2.2.getD i 0 =
          (calculateMACD prices fastPeriod slowPeriod signalPeriod).1.getD i 0 -
            (calculateMACD prices fastPeriod slowPeriod signalPeriod).2.1.getD i 0)) ∧
    (∀ (xs : List ℚ) (p : ℕ), xs ≠ [] →
      (calculateEMA xs p).getD 0 0 = xs.getD 0 0 ∧
      (∀ i, 0 < i → i < xs.length →
        (calculateEMA xs p).getD i 0 =
          2 / ((p : ℚ) + 1) * xs.getD i 0 +
            (1 - 2 / ((p : ℚ) + 1)) * (calculateEMA xs p).getD (i - 1) 0)) := by
  refine ⟨?_, ?_, ?_⟩
  · intro h
    unfold calculateMACD
    rw [if_pos h]
  · intro h
    have hnot : ¬ prices.length < slowPeriod := not_lt.mpr h
    unfold calculateMACD
    rw [if_neg hnot]
    refine ⟨macdLine_length .., ?_, ?_, ?_, ?_⟩
    · simp [calculateEMA_length, macdLine_length]
    · simp [calculateEMA_length, macdLine_length]
    · intro i hi
      unfold macdLine
      exact getD_zipWith _ _ _ i (by rwa [calculateEMA_length])
        (by rwa [calculateEMA_length])
    · intro i hi
      exact getD_zipWith _ _ _ i (by rwa [macdLine_length])
        (by rwa [calculateEMA_length, macdLine_length])
  · intro xs p hxs
    match xs with
    | x :: ys =>
        refine ⟨rfl, ?_⟩
        intro i h0 hlen
        cases i with
        | zero => omega
        | succ j =>
            have hys : j < ys.length := by simpa using hlen
            simp only [calculateEMA, Nat.add_sub_cancel, List.getD_cons_succ]
            rw [emaFrom_getD _ ys x j hys]
            cases j with
            | zero =>
                rw [if_pos rfl, List.getD_cons_zero]
                ring
            | succ k =>
                rw [if_neg (Nat.succ_ne_zero k)]
                simp only [Nat.add_sub_cancel, List.getD_cons_succ]
                ring

/-- Witness for C7 at prices [1, 2] with all periods 1. -/
theorem calculateMACD_shape_witness :
    (calculateMACD ([1, 2] : List ℚ) 1 1 1).1.length = ([1, 2] : List ℚ).length ∧
    (calculateMACD ([1, 2] : List ℚ) 1 1 1).2.1.length = ([1, 2] : List ℚ).length ∧
    (calculateMACD ([1, 2] : List ℚ) 1 1 1).2.2.length = ([1, 2] : List ℚ).length ∧
    (calculateMACD ([1, 2] : List ℚ) 1 1 1).1.getD 0 0 =
      (calculateEMA [1, 2] 1).getD 0 0 - (calculateEMA [1, 2] 1).getD 0 0 := by
  have h := (calculateMACD_shape [1, 2] 1 1 1 (le_refl 1)).2.1 (by norm_num)
  exact ⟨h.1, h.2.1, h.2.2.1, h.2.2.2.1 0 (by norm_num)⟩

/-- The window `prices.slice(i - period + 1, i + 1)` of calculateBollingerBands,
written with k = i - (period - 1): the `period` prices starting at k. -/
def bbSlice (prices : List ℝ) (period k : ℕ) : List ℝ :=
  (prices.drop k).take period

/-- The window mean (`mean`, pushed as the middle band) of
calculateBollingerBands. -/
noncomputable def bbMean (prices : List ℝ) (period k : ℕ) : ℝ :=
  (bbSlice prices period k).sum / (period : ℝ)

/-- The window standard deviation (`std`) of calculateBollingerBands:
Math.sqrt of the mean squared deviation over the window. -/
noncomputable def bbStd (prices : List ℝ) (period k : ℕ) : ℝ :=
  Real.sqrt (((bbSlice prices period k).map
    (fun b => (b - bbMean prices period k) ^ 2)).sum / (period : ℝ))

/-- calculateBollingerBands from the TechnicalAnalysis page: fewer than
`period` prices give three empty arrays; otherwise the loop runs i from
period - 1 to prices.length - 1 (k = i - (period - 1) below), pushing
mean + std * stdDev, mean, and mean - std * stdDev.  The embedding's index
arithmetic assumes period ≥ 1 (the JavaScript loop would start at i = -1
for period 0); the claims use period ≥ 1. -/
noncomputable def calculateBollingerBands (prices : List ℝ) (period : ℕ)
    (stdDev : ℝ) : List ℝ × List ℝ × List ℝ :=
  if prices.length < period then ([], [], [])
  else
    ((List.range (prices.length - (period - 1))).map
      (fun k => bbMean prices period k + bbStd prices period k * stdDev),
     (List.range (prices.length - (period - 1))).map
      (fun k => bbMean prices period k),
     (List.range (prices.length - (period - 1))).map
      (fun k => bbMean prices period k - bbStd prices period k * stdDev))

/-- C6: for period ≥ 1, at least `period` prices and nonnegative stdDev
multiplier, calculateBollingerBands returns three arrays of length
n - period + 1 whose middle entries are the window means, with
lower[k] ≤ middle[k] ≤ upper[k] everywhere; fewer prices give three empty
arrays. -/
theorem calculateBollingerBands_props (prices : List ℝ) (period : ℕ)
    (stdDev : ℝ) (hp : 1 ≤ period) :
    (prices.length < period →
      calculateBollingerBands prices period stdDev = ([], [], [])) ∧
    (period ≤ prices.length →
      (calculateBollingerBands prices period stdDev).1.length =
        prices.length - period + 1 ∧
      (calculateBollingerBands prices period stdDev).2.1.length =
        prices.length - period + 1 ∧
      (calculateBollingerBands prices period stdDev).2.2.length =
        prices.length - period + 1 ∧
      (∀ k < prices.length - period + 1,
        (calculateBollingerBands prices period stdDev).2.1.getD k 0 =
          ((prices.drop k).take period).sum / (period : ℝ)) ∧
      (0 ≤ stdDev → ∀ k < prices.length - period + 1,
        (calculateBollingerBands prices period stdDev).2.2.getD k 0 ≤
          (calculateBollingerBands prices period stdDev).2.1.getD k 0 ∧
        (calculateBollingerBands prices period stdDev).2.1.getD k 0 ≤
          (calculateBollingerBands prices period stdDev).1.getD k 0)) := by
  constructor
  · intro h
    unfold calculateBollingerBands
    rw [if_pos h]
  · intro h
    have hnot : ¬ prices.length < period := not_lt.mpr h
    have hrange : prices.length - (period - 1) = prices.length - period + 1 := by
      omega
    unfold calculateBollingerBands
    rw [if_neg hnot]
    refine ⟨by simp [hrange], by simp [hrange], by simp [hrange], ?_, ?_⟩
    · intro k hk
      rw [getD_range_map _ _ k (by omega)]
      rfl
    · intro hsd k hk
      have hnn : 0 ≤ bbStd prices period k * stdDev :=
        mul_nonneg (Real.sqrt_nonneg _) hsd
      rw [getD_range_map _ _ k (by omega), getD_range_map _ _ k (by omega),
        getD_range_map _ _ k (by omega)]
      constructor
      · linarith
      · linarith

/-- Witness for C6 at prices [2], period 1, stdDev 2: one window of one
price, whose variance is 0, so all three bands are the window mean 2. -/
theorem calculateBollingerBands_props_witness :
    (calculateBollingerBands ([2] : List ℝ) 1 2).1.length = 1 ∧
    (calculateBollingerBands ([2] : List ℝ) 1 2).2.1.getD 0 0 =
      ((([2] : List ℝ).drop 0).take 1).sum / ((1 : ℕ) : ℝ) ∧
    (calculateBollingerBands ([2] : List ℝ) 1 2).2.2.getD 0 0 ≤
      (calculateBollingerBands ([2] : List ℝ) 1 2).2.1.getD 0 0 := by
  have h := (calculateBollingerBands_props [2] 1 2 (le_refl 1)).2 (by norm_num)
  exact ⟨h.1, h.2.2.2.1 0 (by norm_num),
    (h.2.2.2.2 (by norm_num) 0 (by norm_num)).1⟩
